import Mathlib

/- Verification of the path, cache, rename and description logic of a
browser-based file manager.  The client logic is the class `FileManager`
in `src/public/app.js`; the server is the Express application.
JavaScript strings are modelled as Lean `String`, JavaScript `Map`s and
plain objects as association lists that keep insertion order, and each
JavaScript function is translated statement by statement.  Network
results and DOM lookups are passed in as explicit parameters. -/

/-! ## Character-list helpers -/

/-- Drops the leading run of slash characters; the building block of the
regular-expression replace used by `normalizePath`. -/
def dropSlashes : List Char → List Char
  | [] => []
  | c :: rest => if c = '/' then dropSlashes rest else c :: rest

/-- Model of `p.replace(/^\/+|\/+$/g, "")` in `normalizePath`: removes
the leading and the trailing run of slashes. -/
def stripSlashes (l : List Char) : List Char :=
  (dropSlashes (dropSlashes l).reverse).reverse

/-- Model of the JavaScript `String.prototype.replace` with a plain
string pattern: replaces the left-most occurrence of `pat` by `rep`, and
returns the list unchanged when `pat` does not occur. -/
def listReplaceFirst : List Char → List Char → List Char → List Char
  | [], pat, rep => if pat.isEmpty then rep else []
  | c :: rest, pat, rep =>
    if pat.isPrefixOf (c :: rest) then rep ++ (c :: rest).drop pat.length
    else c :: listReplaceFirst rest pat rep

/-- Splitting on the slash character, accumulator form; models
`String.prototype.split("/")`. -/
def splitSlashAux : List Char → List Char → List (List Char)
  | [], acc => [acc.reverse]
  | c :: rest, acc =>
    if c = '/' then acc.reverse :: splitSlashAux rest []
    else splitSlashAux rest (c :: acc)

/-- `s.split("/")` on character lists. -/
def splitSlashL (l : List Char) : List (List Char) := splitSlashAux l []

/-- `segments.join("/")` on character lists. -/
def joinSlashL : List (List Char) → List Char
  | [] => []
  | [s] => s
  | s :: rest => s ++ '/' :: joinSlashL rest

/-- Detects two adjacent slash characters (an empty path segment). -/
def hasDoubleSlashL : List Char → Bool
  | [] => false
  | [_] => false
  | c :: c2 :: rest => (c == '/' && c2 == '/') || hasDoubleSlashL (c2 :: rest)

/-! ## String wrappers -/

/-- JavaScript `s.startsWith(pat)`. -/
def strStartsWith (s pat : String) : Bool := pat.data.isPrefixOf s.data

/-- JavaScript `s.replace(pat, rep)` with a plain string pattern. -/
def strReplaceFirst (s pat rep : String) : String :=
  String.mk (listReplaceFirst s.data pat.data rep.data)

/-- The characters of `s` with the first `n` dropped, as a string. -/
def strDrop (s : String) (n : Nat) : String := String.mk (s.data.drop n)

/-- Whether `s` contains an empty path segment (two adjacent slashes). -/
def hasDoubleSlash (s : String) : Bool := hasDoubleSlashL s.data

/-! ## Path utilities of `FileManager` -/

/-- `FileManager.normalizePath` (app.js lines 100-106). -/
def normalizePath (p : String) : String :=
  if p = "/" then p
  else if p = "" then "/"
  else
    let norm := String.mk (stripSlashes p.data)
    if norm = "" then "/"
    else if strStartsWith norm "/" then norm else "/" ++ norm

/-- `FileManager.getParentPath` (app.js lines 109-116):
`norm.split("/").filter(Boolean)` with the last element popped, joined
back; `null` for the root. -/
def getParentPath (path : String) : Option String :=
  let norm := normalizePath path
  if norm = "/" then none
  else
    let parts := ((splitSlashL norm.data).filter (fun s => !s.isEmpty)).dropLast
    if parts = [] then some "/"
    else some ("/" ++ String.mk (joinSlashL parts))

/-- The segment count `p.split("/").filter(Boolean).length` used by the
re-expansion sort in `loadTree` (app.js lines 299-303), on character
lists. -/
def depthL (l : List Char) : Nat :=
  ((splitSlashL l).filter (fun s => !s.isEmpty)).length

/-- `p.split("/").filter(Boolean).length` on strings. -/
def depth (p : String) : Nat := depthL p.data

/-! ## Basic facts about the helpers -/

theorem string_data_append (a b : String) : (a ++ b).data = a.data ++ b.data := by
  cases a; cases b; rfl

theorem string_mk_data (s : String) : String.mk s.data = s := by
  cases s; rfl

theorem dropSlashes_head? (l : List Char) : (dropSlashes l).head? ≠ some '/' := by
  induction l with
  | nil => simp [dropSlashes]
  | cons c rest ih =>
    by_cases h : c = '/'
    · simpa [dropSlashes, h] using ih
    · simp [dropSlashes, h]

theorem dropSlashes_suffix (l : List Char) : ∃ t, t ++ dropSlashes l = l := by
  induction l with
  | nil => exact ⟨[], rfl⟩
  | cons c rest ih =>
    by_cases h : c = '/'
    · obtain ⟨t, ht⟩ := ih
      exact ⟨c :: t, by simp [dropSlashes, h, ht]⟩
    · exact ⟨[], by simp [dropSlashes, h]⟩

theorem dropSlashes_of_head (l : List Char) (h : l.head? ≠ some '/') :
    dropSlashes l = l := by
  cases l with
  | nil => rfl
  | cons c rest =>
    have hc : c ≠ '/' := by
      intro hc
      exact h (by simp [hc])
    simp [dropSlashes, hc]

theorem getLast?_reverse' (l : List Char) : l.reverse.getLast? = l.head? := by
  cases l with
  | nil => rfl
  | cons c cs =>
    rw [List.reverse_cons]
    rw [List.getLast?_append_cons cs.reverse c []]
    rfl

theorem stripSlashes_head? (l : List Char) : (stripSlashes l).head? ≠ some '/' := by
  unfold stripSlashes
  obtain ⟨t, ht⟩ := dropSlashes_suffix (dropSlashes l).reverse
  have hsplit : (dropSlashes (dropSlashes l).reverse).reverse ++ t.reverse = dropSlashes l := by
    have := congrArg List.reverse ht
    simpa using this
  cases hrev : (dropSlashes (dropSlashes l).reverse).reverse with
  | nil => simp
  | cons c cs =>
    have : (dropSlashes l).head? = some c := by
      rw [← hsplit, hrev]
      rfl
    intro hcontra
    have hc : c = '/' := by simpa using hcontra
    exact dropSlashes_head? l (by rw [this, hc])

theorem stripSlashes_getLast? (l : List Char) :
    (stripSlashes l).getLast? ≠ some '/' := by
  unfold stripSlashes
  rw [getLast?_reverse']
  exact dropSlashes_head? (dropSlashes l).reverse

theorem head?_reverse' (l : List Char) : l.reverse.head? = l.getLast? := by
  have h := getLast?_reverse' l.reverse
  rw [List.reverse_reverse] at h
  exact h.symm

theorem string_mk_ne_empty {l : List Char} (h : l ≠ []) : String.mk l ≠ "" := by
  intro hc
  apply h
  have hd := congrArg String.data hc
  simpa using hd

theorem strStartsWith_slash_false {l : List Char} (hne : l ≠ [])
    (h : l.head? ≠ some '/') : strStartsWith (String.mk l) "/" = false := by
  unfold strStartsWith
  cases l with
  | nil => exact absurd rfl hne
  | cons c cs =>
    have hc : c ≠ '/' := fun hc => h (by simp [hc])
    show ("/").data.isPrefixOf (c :: cs) = false
    have hd : ("/").data = ['/'] := rfl
    rw [hd]
    simp [List.isPrefixOf]
    exact fun hcc => absurd hcc.symm hc

/-- Shape of every `normalizePath` result: either the root `"/"`, or a
slash followed by a nonempty block that neither starts nor ends with a
slash. -/
theorem normalizePath_shape (p : String) :
    normalizePath p = "/" ∨
    ∃ l : List Char, (normalizePath p).data = '/' :: l ∧ l ≠ [] ∧
      l.head? ≠ some '/' ∧ l.getLast? ≠ some '/' := by
  by_cases h1 : p = "/"
  · left
    simp [normalizePath, h1]
  · by_cases h2 : p = ""
    · left
      simp [normalizePath, h1, h2]
    · by_cases h3 : stripSlashes p.data = []
      · left
        simp [normalizePath, h1, h2, h3]
      · right
        have hnorm : String.mk (stripSlashes p.data) ≠ "" := string_mk_ne_empty h3
        have hstart : strStartsWith (String.mk (stripSlashes p.data)) "/" = false :=
          strStartsWith_slash_false h3 (stripSlashes_head? p.data)
        refine ⟨stripSlashes p.data, ?_, h3, stripSlashes_head? p.data,
          stripSlashes_getLast? p.data⟩
        simp [normalizePath, h1, h2, hnorm, hstart, string_data_append]

/-- A string of the canonical `'/' :: block` shape is a fixed point of
`normalizePath`. -/
theorem normalizePath_fixed {q : String} {l : List Char}
    (hdata : q.data = '/' :: l) (hne : l ≠ [])
    (hhead : l.head? ≠ some '/') (hlast : l.getLast? ≠ some '/') :
    normalizePath q = q := by
  have hq1 : q ≠ "/" := by
    intro hc
    rw [hc] at hdata
    have hd : ('/' :: l : List Char) = ['/'] := by
      rw [← hdata]
    exact hne (by simpa using hd)
  have hq2 : q ≠ "" := by
    intro hc
    rw [hc] at hdata
    simp at hdata
  have hstrip : stripSlashes q.data = l := by
    rw [hdata]
    unfold stripSlashes
    have d1 : dropSlashes ('/' :: l) = dropSlashes l := by simp [dropSlashes]
    have d2 : dropSlashes l = l := dropSlashes_of_head l hhead
    have d3 : dropSlashes l.reverse = l.reverse := by
      apply dropSlashes_of_head
      rw [head?_reverse']
      exact hlast
    rw [d1, d2, d3, List.reverse_reverse]
  have hnorm : String.mk (stripSlashes q.data) ≠ "" := by
    rw [hstrip]
    exact string_mk_ne_empty hne
  have hstart : strStartsWith (String.mk (stripSlashes q.data)) "/" = false := by
    rw [hstrip]
    exact strStartsWith_slash_false hne hhead
  have hres : normalizePath q = "/" ++ String.mk (stripSlashes q.data) := by
    simp [normalizePath, hq1, hq2, hnorm, hstart]
  rw [hres, hstrip]
  cases q with
  | mk d =>
    simp at hdata
    rw [hdata]
    apply congrArg String.mk
    rfl

/-- Claim C6: `normalizePath` is idempotent on every input string. -/
theorem claim_C6_normalize_idempotent (p : String) :
    normalizePath (normalizePath p) = normalizePath p := by
  rcases normalizePath_shape p with h | ⟨l, hdata, hne, hhead, hlast⟩
  · rw [h]
    rfl
  · exact normalizePath_fixed hdata hne hhead hlast

/-- Claim C3 counterexample: on input `"/a//b"` the function
`normalizePath` keeps the two adjacent slashes, so the result contains
an empty segment, contradicting the claimed canonical form. -/
theorem claim_C3_counterexample :
    normalizePath "/a//b" = "/a//b" ∧
    hasDoubleSlash (normalizePath "/a//b") = true := by
  exact ⟨by decide, by decide⟩

/-- Claim C3 (amended): every `normalizePath` result begins with `/` and
has no trailing slash unless it is exactly the root `"/"`; interior
empty segments, however, are preserved (adjacent slashes are not
collapsed). -/
theorem claim_C3_normalized_form (p : String) :
    strStartsWith (normalizePath p) "/" = true ∧
    (normalizePath p = "/" ∨ (normalizePath p).data.getLast? ≠ some '/') := by
  rcases normalizePath_shape p with h | ⟨l, hdata, hne, _hhead, hlast⟩
  · rw [h]
    exact ⟨by decide, Or.inl rfl⟩
  · constructor
    · unfold strStartsWith
      rw [hdata]
      show ("/").data.isPrefixOf ('/' :: l) = true
      have hd : ("/").data = ['/'] := rfl
      rw [hd]
      simp [List.isPrefixOf]
    · right
      rw [hdata]
      cases l with
      | nil => exact absurd rfl hne
      | cons c cs =>
        rw [List.getLast?_cons_cons]
        exact hlast

/-! ## Tree nodes, maps and the folder cache -/

/-- A child descriptor as cached by the client: the fields of the nodes
the server returns, with `path` re-normalized by the client. -/
structure TreeNode where
  name : String
  path : String
  type : String
  hasChildren : Bool
deriving DecidableEq

/-- JavaScript `Map.prototype.set`: updates the value in place when the
key is present (keeping its insertion position), appends otherwise. -/
def mapSet {β : Type} (m : List (String × β)) (k : String) (v : β) :
    List (String × β) :=
  if m.any (fun e => e.1 == k) then
    m.map (fun e => if e.1 = k then (k, v) else e)
  else m ++ [(k, v)]

/-- Property lookup on a JavaScript object, or `Map.prototype.get`. -/
def objGet {β : Type} : List (String × β) → String → Option β
  | [], _ => none
  | e :: m, k => if e.1 = k then some e.2 else objGet m k

/-- JavaScript `delete obj[k]`. -/
def objDel {β : Type} (m : List (String × β)) (k : String) :
    List (String × β) :=
  m.filter (fun e => !(e.1 == k))

/-- `FileManager.invalidateLoadedFolders` (app.js lines 128-143):
removes the normalized path itself and every key continuing it with a
slash, clearing the whole cache when the normalized path is the root. -/
def invalidateLoadedFolders (cache : List (String × List TreeNode))
    (path : String) : List (String × List TreeNode) :=
  let norm := normalizePath path
  if norm = "/" then []
  else cache.filter (fun e => !(e.1 == norm || strStartsWith e.1 (norm ++ "/")))

/-- Modelled from the spec, section 4.1: `isDescendant(ancestor, candidate)`
is true iff `candidate == ancestor` or `candidate` starts with
`ancestor + "/"`, a root ancestor matching everything. -/
def isDescendantSpec (ancestor candidate : String) : Bool :=
  ancestor == "/" || candidate == ancestor ||
    strStartsWith candidate (ancestor ++ "/")

/-- For a canonical path, `invalidateLoadedFolders` keeps exactly the
entries whose key is not an `isDescendant` of the path. -/
theorem invalidate_eq_filter (cache : List (String × List TreeNode))
    (p : String) (hcanon : normalizePath p = p) :
    invalidateLoadedFolders cache p =
      cache.filter (fun e => !(isDescendantSpec p e.1)) := by
  by_cases hroot : p = "/"
  · subst hroot
    unfold invalidateLoadedFolders
    simp only [hcanon]
    simp [isDescendantSpec]
  · unfold invalidateLoadedFolders
    simp only [hcanon]
    rw [if_neg hroot]
    apply List.filter_congr
    intro e _
    have hp : (p == "/") = false := by
      simp only [beq_eq_false_iff_ne, ne_eq]
      exact hroot
    simp [isDescendantSpec, hp]

/-- Claim C5: for a canonical path `p`, `invalidateLoadedFolders`
removes exactly the cached keys `k` for which `isDescendant(p, k)`
holds (`k == p` or `k` starts with `p + "/"`), and invalidating the
root removes every cached key (a root ancestor matches every key). -/
theorem claim_C5_invalidate_exact (cache : List (String × List TreeNode))
    (p : String) (hcanon : normalizePath p = p) :
    invalidateLoadedFolders cache p =
      cache.filter (fun e => !(isDescendantSpec p e.1)) :=
  invalidate_eq_filter cache p hcanon

/-- Claim C5 witness: the theorem applied to a concrete cache and the
concrete path `/a`; the surviving keys are `/ab` and `/x`. -/
theorem claim_C5_witness :
    invalidateLoadedFolders
        [("/a", ([] : List TreeNode)), ("/a/b", []), ("/ab", []), ("/x", [])]
        "/a" = [("/ab", []), ("/x", [])] := by
  have h := claim_C5_invalidate_exact
    [("/a", ([] : List TreeNode)), ("/a/b", []), ("/ab", []), ("/x", [])]
    "/a" (by decide)
  rw [h]
  decide

/-- Claim C2 counterexample: with cached keys `/a`, `/a/b`, `/a/bc` and
`/x`, the call `invalidate("/a")` does remove `/a/bc` — the key starts
with `"/a/"`, so it is a segment descendant of `/a` — contradicting the
claim that `/a/bc` must remain cached. -/
theorem claim_C2_counterexample :
    (invalidateLoadedFolders
        [("/a", ([] : List TreeNode)), ("/a/b", []), ("/a/bc", []), ("/x", [])]
        "/a").all (fun e => !(e.1 == "/a/bc")) = true := by
  decide

/-- Claim C2 (amended): with cached keys `/a`, `/a/b`, `/a/bc` and
`/x`, `invalidate("/a")` removes `/a`, `/a/b` and also `/a/bc` — all
three are segment descendants of `/a`, since `/a/bc` starts with
`"/a/"` — leaving exactly `/x` cached. -/
theorem claim_C2_invalidate_example :
    invalidateLoadedFolders
        [("/a", ([] : List TreeNode)), ("/a/b", []), ("/a/bc", []), ("/x", [])]
        "/a" = [("/x", [])] := by
  decide

/-! ## Facts about string replacement and map building -/

theorem isPrefixOf_iff_append (l₁ l₂ : List Char) :
    l₁.isPrefixOf l₂ = true ↔ ∃ t, l₁ ++ t = l₂ := by
  induction l₁ generalizing l₂ with
  | nil => simp [List.isPrefixOf]
  | cons a as ih =>
    cases l₂ with
    | nil => simp [List.isPrefixOf]
    | cons b bs =>
      simp only [List.isPrefixOf, Bool.and_eq_true, beq_iff_eq]
      constructor
      · rintro ⟨hab, h⟩
        obtain ⟨t, ht⟩ := (ih bs).1 h
        exact ⟨t, by rw [List.cons_append, hab, ht]⟩
      · rintro ⟨t, ht⟩
        rw [List.cons_append] at ht
        injection ht with h1 h2
        exact ⟨h1, (ih bs).2 ⟨t, h2⟩⟩

theorem listReplaceFirst_append (pat rep t : List Char) :
    listReplaceFirst (pat ++ t) pat rep = rep ++ t := by
  have hpre : pat.isPrefixOf (pat ++ t) = true :=
    (isPrefixOf_iff_append pat (pat ++ t)).2 ⟨t, rfl⟩
  cases hp : pat ++ t with
  | nil =>
    have h2 : pat = [] ∧ t = [] := List.append_eq_nil.1 hp
    rw [h2.1, h2.2]
    simp [listReplaceFirst]
  | cons c cs =>
    rw [hp] at hpre
    simp only [listReplaceFirst, hpre, if_true]
    rw [← hp, List.drop_left]

theorem string_length_data (s : String) : s.length = s.data.length := rfl

theorem strReplaceFirst_of_startsWith {s pat : String} (rep : String)
    (h : strStartsWith s pat = true) :
    strReplaceFirst s pat rep = rep ++ strDrop s pat.length := by
  unfold strStartsWith at h
  obtain ⟨t, ht⟩ := (isPrefixOf_iff_append pat.data s.data).1 h
  unfold strReplaceFirst strDrop
  rw [← ht, string_length_data, listReplaceFirst_append, List.drop_left]
  cases rep with
  | mk rd => rfl

theorem strStartsWith_trans {a b c : String}
    (h1 : strStartsWith b a = true) (h2 : strStartsWith c b = true) :
    strStartsWith c a = true := by
  unfold strStartsWith at h1 h2 ⊢
  obtain ⟨t1, ht1⟩ := (isPrefixOf_iff_append a.data b.data).1 h1
  obtain ⟨t2, ht2⟩ := (isPrefixOf_iff_append b.data c.data).1 h2
  exact (isPrefixOf_iff_append a.data c.data).2
    ⟨t1 ++ t2, by rw [← List.append_assoc, ht1, ht2]⟩

theorem strStartsWith_trans_slash {p old : String}
    (h : strStartsWith p (old ++ "/") = true) : strStartsWith p old = true := by
  unfold strStartsWith at h ⊢
  obtain ⟨t, ht⟩ := (isPrefixOf_iff_append (old ++ "/").data p.data).1 h
  rw [string_data_append] at ht
  exact (isPrefixOf_iff_append old.data p.data).2
    ⟨("/").data ++ t, by rw [← List.append_assoc, ht]⟩

theorem mapSet_not_mem {β : Type} (m : List (String × β)) (k : String) (v : β)
    (h : k ∉ m.map Prod.fst) : mapSet m k v = m ++ [(k, v)] := by
  unfold mapSet
  have hany : m.any (fun e => e.1 == k) = false := by
    apply List.any_eq_false.2
    intro e he hk
    rw [beq_iff_eq] at hk
    exact h (List.mem_map.2 ⟨e, he, hk⟩)
  rw [hany]
  simp

theorem foldl_mapSet_of_nodup {β : Type} (g : String × β → String × β) :
    ∀ (l acc : List (String × β)),
      ((acc ++ l.map g).map Prod.fst).Nodup →
      l.foldl (fun a e => mapSet a (g e).1 (g e).2) acc = acc ++ l.map g := by
  intro l
  induction l with
  | nil =>
    intro acc _
    simp
  | cons e l' ih =>
    intro acc hnodup
    simp only [List.map_cons, List.foldl_cons]
    have hkey : (g e).1 ∉ acc.map Prod.fst := by
      intro hmem
      rw [List.map_cons, List.map_append] at hnodup
      obtain ⟨h1, h2, hdisj⟩ := List.nodup_append.1 hnodup
      exact hdisj hmem (by simp)
    have hstep : mapSet acc (g e).1 (g e).2 = acc ++ [g e] := by
      rw [mapSet_not_mem acc (g e).1 (g e).2 hkey]
    rw [hstep]
    have hn2 : (((acc ++ [g e]) ++ l'.map g).map Prod.fst).Nodup := by
      have hl : (acc ++ [g e]) ++ l'.map g = acc ++ (g e :: l'.map g) := by
        rw [List.append_assoc]
        rfl
      rw [hl]
      simpa using hnodup
    rw [ih (acc ++ [g e]) hn2, List.append_assoc]
    rfl

/-! ## The rename path rewrite -/

/-- One entry of the `folderCache` rewrite loop in `confirmRename`
(app.js lines 813-829): the exact old key moves to the new key with its
data untouched; a key continuing `oldPath + "/"` is rewritten with
`String.replace`, as is the `path` of every item in its data; any other
entry is untouched. -/
def renameCacheEntry (oldPath newPath : String)
    (e : String × List TreeNode) : String × List TreeNode :=
  if e.1 = oldPath then (newPath, e.2)
  else if strStartsWith e.1 (oldPath ++ "/") then
    (strReplaceFirst e.1 oldPath newPath,
     e.2.map (fun it => { it with path := strReplaceFirst it.path oldPath newPath }))
  else e

/-- The `folderCache` rewrite of `confirmRename` (app.js lines 813-829):
a fresh `Map` built with `Map.set` over the old entries in order. -/
def renameFolderCache (cache : List (String × List TreeNode))
    (oldPath newPath : String) : List (String × List TreeNode) :=
  cache.foldl
    (fun acc e => mapSet acc (renameCacheEntry oldPath newPath e).1
      (renameCacheEntry oldPath newPath e).2) []

/-- An open file as stored in the `openFiles` map of `FileManager`. -/
structure FileData where
  name : String
  content : String
  description : String
  path : String
deriving DecidableEq

/-- One entry of the `openFiles` rewrite loop in `confirmRename`
(app.js lines 832-851): the exact old key moves to the new key with
`path` and `name` replaced; a key continuing `oldPath + "/"` is
rewritten with `String.replace` in both the key and the `path` field,
keeping `name`; any other entry is untouched. -/
def renameOpenFileEntry (oldPath newPath newName : String)
    (e : String × FileData) : String × FileData :=
  if e.1 = oldPath then
    (newPath, { e.2 with path := newPath, name := newName })
  else if strStartsWith e.1 (oldPath ++ "/") then
    (strReplaceFirst e.1 oldPath newPath,
     { e.2 with path := strReplaceFirst e.1 oldPath newPath, name := e.2.name })
  else e

/-- The `openFiles` rewrite of `confirmRename` (app.js lines 832-851). -/
def renameOpenFiles (files : List (String × FileData))
    (oldPath newPath newName : String) : List (String × FileData) :=
  files.foldl
    (fun acc e => mapSet acc (renameOpenFileEntry oldPath newPath newName e).1
      (renameOpenFileEntry oldPath newPath newName e).2) []

/-- Claim C1 counterexample: renaming `/docs` to `/documents` when the
cache holds the single entry keyed exactly `/docs` moves the key but
leaves the child descriptor's `path` field at `/docs/readme.txt` — the
`path` fields under the exact-match key are not rewritten, contradicting
the claim's "including the entry keyed exactly oldPath". -/
theorem claim_C1_counterexample :
    renameFolderCache
        [("/docs", [TreeNode.mk "readme.txt" "/docs/readme.txt" "file" false])]
        "/docs" "/documents" =
      [("/documents",
        [TreeNode.mk "readme.txt" "/docs/readme.txt" "file" false])] ∧
    ("/docs/readme.txt" : String) ≠ "/documents/readme.txt" := by
  exact ⟨by decide, by decide⟩

/-- Claim C1 (amended): provided the rewritten keys stay pairwise
distinct and every cached descriptor's `path` extends its key by a
slash, the rename rewrite maps every cache key equal to `oldPath` or
having `oldPath` as a segment prefix to the corresponding `newPath`
form, and rewrites the `path` field of the child descriptors only for
keys strictly below `oldPath`; the entry keyed exactly `oldPath` keeps
its child descriptors (with their old `path` fields) unchanged, and all
other entries are untouched. -/
theorem claim_C1_rename_cache (cache : List (String × List TreeNode))
    (oldPath newPath : String)
    (hkeys : ((cache.map (renameCacheEntry oldPath newPath)).map Prod.fst).Nodup)
    (hitems : ∀ e ∈ cache, ∀ it ∈ e.2, strStartsWith it.path (e.1 ++ "/") = true) :
    renameFolderCache cache oldPath newPath =
      cache.map (fun e =>
        if e.1 = oldPath then (newPath, e.2)
        else if strStartsWith e.1 (oldPath ++ "/") then
          (newPath ++ strDrop e.1 oldPath.length,
           e.2.map (fun it =>
             { it with path := newPath ++ strDrop it.path oldPath.length }))
        else e) := by
  have hfold := foldl_mapSet_of_nodup (renameCacheEntry oldPath newPath) cache []
    (by simpa using hkeys)
  unfold renameFolderCache
  rw [hfold]
  rw [List.nil_append]
  apply List.map_congr_left
  intro e he
  unfold renameCacheEntry
  by_cases h1 : e.1 = oldPath
  · simp [h1]
  · rw [if_neg h1, if_neg h1]
    by_cases h2 : strStartsWith e.1 (oldPath ++ "/") = true
    · rw [if_pos h2, if_pos h2]
      have hkey : strReplaceFirst e.1 oldPath newPath =
          newPath ++ strDrop e.1 oldPath.length :=
        strReplaceFirst_of_startsWith newPath (strStartsWith_trans_slash h2)
      rw [hkey]
      have hmap : e.2.map (fun it =>
            { it with path := strReplaceFirst it.path oldPath newPath }) =
          e.2.map (fun it =>
            { it with path := newPath ++ strDrop it.path oldPath.length }) := by
        apply List.map_congr_left
        intro it hit
        have h3 := hitems e he it hit
        have h4 : strStartsWith it.path e.1 = true := strStartsWith_trans_slash h3
        have h5 : strStartsWith it.path oldPath = true :=
          strStartsWith_trans_slash (strStartsWith_trans h2 h4)
        rw [strReplaceFirst_of_startsWith newPath h5]
      rw [hmap]
    · rw [if_neg h2, if_neg h2]

/-- Claim C1 witness: the amended theorem applied to a concrete cache
holding the exact key, a strict descendant key and an unrelated key. -/
theorem claim_C1_witness :
    renameFolderCache
        [("/docs", [TreeNode.mk "sub" "/docs/sub" "folder" true]),
         ("/docs/sub", [TreeNode.mk "notes.txt" "/docs/sub/notes.txt" "file" false]),
         ("/other", [TreeNode.mk "f.txt" "/other/f.txt" "file" false])]
        "/docs" "/documents" =
      [("/documents", [TreeNode.mk "sub" "/docs/sub" "folder" true]),
       ("/documents/sub",
        [TreeNode.mk "notes.txt" "/documents/sub/notes.txt" "file" false]),
       ("/other", [TreeNode.mk "f.txt" "/other/f.txt" "file" false])] := by
  rw [claim_C1_rename_cache _ _ _ (by decide) (by decide)]
  decide

/-- Claim C7: provided the rewritten keys stay pairwise distinct, the
`openFiles` rewrite of a rename maps every key equal to `oldPath` or
having `oldPath` as a segment prefix to the `newPath` form, updates the
stored `name` to the new name only for the exact match, keeps the
`name` of descendant entries, and leaves every other entry untouched. -/
theorem claim_C7_rename_open_files (files : List (String × FileData))
    (oldPath newPath newName : String)
    (hkeys : ((files.map (renameOpenFileEntry oldPath newPath newName)).map
      Prod.fst).Nodup) :
    renameOpenFiles files oldPath newPath newName =
      files.map (fun e =>
        if e.1 = oldPath then
          (newPath, { e.2 with path := newPath, name := newName })
        else if strStartsWith e.1 (oldPath ++ "/") then
          (newPath ++ strDrop e.1 oldPath.length,
           { e.2 with path := newPath ++ strDrop e.1 oldPath.length })
        else e) := by
  have hfold := foldl_mapSet_of_nodup (renameOpenFileEntry oldPath newPath newName)
    files [] (by simpa using hkeys)
  unfold renameOpenFiles
  rw [hfold]
  rw [List.nil_append]
  apply List.map_congr_left
  intro e _
  unfold renameOpenFileEntry
  by_cases h1 : e.1 = oldPath
  · simp [h1]
  · rw [if_neg h1, if_neg h1]
    by_cases h2 : strStartsWith e.1 (oldPath ++ "/") = true
    · rw [if_pos h2, if_pos h2]
      rw [strReplaceFirst_of_startsWith newPath (strStartsWith_trans_slash h2)]
    · rw [if_neg h2, if_neg h2]

/-- Claim C7 witness: renaming `/docs` to `/documents` with open files
`/docs/readme.txt`, `/docs/sub/notes.txt` and `/b/y.txt` rewrites the
two descendant keys, keeps their display names, and leaves the third
entry untouched. -/
theorem claim_C7_witness :
    renameOpenFiles
        [("/docs/readme.txt", FileData.mk "readme.txt" "c1" "d1" "/docs/readme.txt"),
         ("/docs/sub/notes.txt", FileData.mk "notes.txt" "c2" "d2" "/docs/sub/notes.txt"),
         ("/b/y.txt", FileData.mk "y.txt" "c3" "d3" "/b/y.txt")]
        "/docs" "/documents" "documents" =
      [("/documents/readme.txt",
        FileData.mk "readme.txt" "c1" "d1" "/documents/readme.txt"),
       ("/documents/sub/notes.txt",
        FileData.mk "notes.txt" "c2" "d2" "/documents/sub/notes.txt"),
       ("/b/y.txt", FileData.mk "y.txt" "c3" "d3" "/b/y.txt")] := by
  rw [claim_C7_rename_open_files _ _ _ _ (by decide)]
  decide

/-! ## Client state and saveDescription -/

/-- The mutable fields of `FileManager` that the claims refer to. -/
structure ClientState where
  folderCache : List (String × List TreeNode)
  expandedFolders : List String
  openFiles : List (String × FileData)
  activeTab : Option String
  selectedItem : Option (String × String)
  descriptions : List (String × String)
  currentFile : Option String
deriving DecidableEq

/-- The parent path computed inside `saveDescription` (app.js lines
934-935): `currentFile.split("/").slice(0, -1).join("/") || "/"`. -/
def saveDescParent (cf : String) : String :=
  let pp := String.mk (joinSlashL ((splitSlashL cf.data).dropLast))
  if pp = "" then "/" else pp

/-- `FileManager.saveDescription` (app.js lines 915-955).  The remote
call result, the two DOM lookups (the file's tree element, and the
parent folder's header/container pair) and the children fetched by the
parent reload are parameters.  The asynchronous descendant reloads
started by `restoreExpandedChildren` complete after the function body
and are not part of the returned state. -/
def saveDescription (s : ClientState) (description : String)
    (remote : Except Unit Unit) (fileElInDom parentInDom : Bool)
    (fetched : List TreeNode) : ClientState :=
  match s.currentFile with
  | none => s
  | some cf =>
    if cf = "" then s
    else
      match remote with
      | .error _ => s
      | .ok _ =>
        let descs := mapSet s.descriptions cf description
        let files :=
          if s.openFiles.any (fun e => e.1 == cf) then
            s.openFiles.map (fun e =>
              if e.1 = cf then (e.1, { e.2 with description := description })
              else e)
          else s.openFiles
        let cache :=
          if fileElInDom && parentInDom then
            mapSet (invalidateLoadedFolders s.folderCache (saveDescParent cf))
              (saveDescParent cf) fetched
          else s.folderCache
        { s with descriptions := descs, openFiles := files,
                 folderCache := cache }

theorem filter_fst_map {β : Type} (l : List (String × β)) (p : String → Bool) :
    (l.filter (fun e => p e.1)).map Prod.fst = (l.map Prod.fst).filter p := by
  induction l with
  | nil => rfl
  | cons e l' ih =>
    by_cases h : p e.1
    · simp [List.filter_cons, h, ih]
    · simp [List.filter_cons, h, ih]

/-- A concrete client state used for claim C4: three cached folders, a
file `/a/f.txt` open in the editor. -/
def c4state : ClientState :=
  { folderCache := [("/", []), ("/a", []), ("/a/b", [])],
    expandedFolders := [], openFiles := [], activeTab := none,
    selectedItem := none, descriptions := [],
    currentFile := some "/a/f.txt" }

/-- Claim C4 counterexample: a successful `saveDescription` for
`/a/f.txt`, with the file element rendered in the tree, invalidates the
parent folder `/a` — the previously cached key `/a/b` disappears from
the FolderCache, so the set of cache keys is not unchanged. -/
theorem claim_C4_counterexample :
    ("/a/b" : String) ∈ c4state.folderCache.map Prod.fst ∧
    ("/a/b" : String) ∉ (saveDescription c4state "hello" (Except.ok ()) true true
        [TreeNode.mk "f.txt" "/a/f.txt" "file" false]).folderCache.map Prod.fst := by
  exact ⟨by decide, by decide⟩

/-- Claim C4 (amended): a successful `saveDescription` leaves the
FolderCache untouched only when the saved file's element is not in the
rendered tree; when the element and the parent's container are
rendered, it invalidates the parent folder computed from the current
file — removing the parent key and every segment descendant — and
re-caches the parent with the freshly fetched children, so the key set
becomes the old keys minus the parent's subtree plus the parent
itself. -/
theorem claim_C4_save_description_cache (s : ClientState)
    (description : String) (fetched : List TreeNode) (cf : String)
    (hcf : s.currentFile = some cf) (hcfne : cf ≠ "")
    (hpar : normalizePath (saveDescParent cf) = saveDescParent cf) :
    (saveDescription s description (Except.ok ()) true true
        fetched).folderCache.map Prod.fst =
      (s.folderCache.map Prod.fst).filter
        (fun k => !(isDescendantSpec (saveDescParent cf) k)) ++
        [saveDescParent cf] ∧
    ∀ (remote : Except Unit Unit) (pd : Bool),
      (saveDescription s description remote false pd
        fetched).folderCache = s.folderCache := by
  constructor
  · have heval : (saveDescription s description (Except.ok ()) true true
        fetched).folderCache =
        mapSet (invalidateLoadedFolders s.folderCache (saveDescParent cf))
          (saveDescParent cf) fetched := by
      unfold saveDescription
      rw [hcf]
      simp [hcfne]
    rw [heval]
    rw [invalidate_eq_filter s.folderCache (saveDescParent cf) hpar]
    have hnotmem : saveDescParent cf ∉
        (s.folderCache.filter
          (fun e => !(isDescendantSpec (saveDescParent cf) e.1))).map Prod.fst := by
      intro hmem
      obtain ⟨e, he, heq⟩ := List.mem_map.1 hmem
      have hfil := (List.mem_filter.1 he).2
      rw [heq] at hfil
      have hself : isDescendantSpec (saveDescParent cf) (saveDescParent cf) = true := by
        simp [isDescendantSpec]
      rw [hself] at hfil
      simp at hfil
    rw [mapSet_not_mem _ _ _ hnotmem, List.map_append]
    have hsingle : List.map Prod.fst [(saveDescParent cf, fetched)] =
        [saveDescParent cf] := rfl
    rw [hsingle]
    exact congrArg (· ++ [saveDescParent cf])
      (filter_fst_map s.folderCache
        (fun k => !(isDescendantSpec (saveDescParent cf) k)))
  · intro remote pd
    unfold saveDescription
    rw [hcf]
    cases remote with
    | error e => simp [hcfne]
    | ok u => simp [hcfne]

/-- Claim C4 witness: the amended theorem applied to the concrete state
`c4state`; the parent `/a` is re-cached, `/a/b` is dropped. -/
theorem claim_C4_witness :
    (saveDescription c4state "hello" (Except.ok ()) true true
        []).folderCache.map Prod.fst =
      (c4state.folderCache.map Prod.fst).filter
        (fun k => !(isDescendantSpec (saveDescParent "/a/f.txt") k)) ++
        [saveDescParent "/a/f.txt"] ∧
    (saveDescription c4state "hello" (Except.ok ()) true true
        []).folderCache.map Prod.fst = ["/", "/a"] := by
  refine ⟨(claim_C4_save_description_cache c4state "hello" [] "/a/f.txt"
    (by decide) (by decide) (by decide)).1, by decide⟩

/-! ## confirmRename -/

/-- The path rewrite case split used repeatedly by `confirmRename`:
exact match becomes `newPath`, a path continuing `oldPath + "/"` is
rewritten with `String.replace`, anything else is unchanged. -/
def rewritePathOnRename (p oldPath newPath : String) : String :=
  if p = oldPath then newPath
  else if strStartsWith p (oldPath ++ "/") then
    strReplaceFirst p oldPath newPath
  else p

/-- The `expandedFolders` rewrite of `confirmRename` (app.js lines
800-810): a fresh `Set` built by `add` over the old elements in
order. -/
def renameExpanded (ex : List String) (oldPath newPath : String) :
    List String :=
  ex.foldl (fun acc p =>
    let q := rewritePathOnRename p oldPath newPath
    if acc.contains q then acc else acc ++ [q]) []

/-- The `activeTab` rewrite of `confirmRename` (app.js lines 867-874);
the guard `if (this.activeTab)` is falsy for a missing tab and for the
empty string. -/
def renameActiveTab (t : Option String) (oldPath newPath : String) :
    Option String :=
  match t with
  | none => none
  | some tab =>
    if tab = "" then some tab
    else some (rewritePathOnRename tab oldPath newPath)

/-- The `selectedItem` rewrite of `confirmRename` (app.js lines
877-886): only the `path` component is rewritten. -/
def renameSelected (sel : Option (String × String))
    (oldPath newPath : String) : Option (String × String) :=
  match sel with
  | none => none
  | some pt => some (rewritePathOnRename pt.1 oldPath newPath, pt.2)

/-- The reload step at the end of `confirmRename` (app.js lines
888-904): either the parent header and container are in the DOM and the
parent's children are re-fetched, or `refreshTreeAndDescriptions` runs
a full reload.  The DOM snapshot and the fetch results are
parameters. -/
inductive RenameReload where
  | parentInDom (fetched : List TreeNode)
  | fullRefresh (domExpanded : List String) (rootChildren : List TreeNode)
      (expandedLoads : List (String × List TreeNode))
      (freshDescs : List (String × String))

/-- `FileManager.confirmRename` (app.js lines 785-913).  The new name
read from the modal, the remote call result (`Except.error` when the
request throws) and the DOM-dependent reload data are parameters.  When
the request throws, the `catch` only logs, so the state is returned
untouched; every local update follows the awaited call.  In the
`fullRefresh` branch, `loadTree` re-snapshots the expanded set from the
DOM, re-caches the root children, then loads the still-uncached
expanded folders in order; its selection restoration and the
asynchronous `restoreExpandedChildren` completions are outside the
returned state. -/
def confirmRename (s : ClientState) (renamePath newName : String)
    (remote : Except Unit (Option String)) (reload : RenameReload) :
    ClientState :=
  if newName = "" then s
  else
    match remote with
    | .error _ => s
    | .ok resNewPath =>
      let oldPath := normalizePath renamePath
      let fallback :=
        (match getParentPath oldPath with
         | some pp => pp
         | none => "null") ++ "/" ++ newName
      let newPath :=
        match resNewPath with
        | some np => if np = "" then fallback else np
        | none => fallback
      let s1 : ClientState :=
        { s with
          expandedFolders := renameExpanded s.expandedFolders oldPath newPath,
          folderCache := renameFolderCache s.folderCache oldPath newPath,
          openFiles := renameOpenFiles s.openFiles oldPath newPath newName,
          activeTab := renameActiveTab s.activeTab oldPath newPath,
          selectedItem := renameSelected s.selectedItem oldPath newPath }
      let parentPath := (getParentPath oldPath).getD "/"
      let s2 :=
        { s1 with
          folderCache := invalidateLoadedFolders s1.folderCache parentPath }
      match reload with
      | .parentInDom fetched =>
        { s2 with folderCache := mapSet s2.folderCache parentPath fetched }
      | .fullRefresh domExpanded rootChildren expandedLoads freshDescs =>
        let c0 := mapSet s2.folderCache "/" rootChildren
        let c1 := expandedLoads.foldl
          (fun c pl =>
            if c.any (fun e => e.1 == pl.1) then c else mapSet c pl.1 pl.2) c0
        { s2 with expandedFolders := domExpanded, folderCache := c1,
                  descriptions := freshDescs }

/-- Claim C8: when the remote rename call throws, `confirmRename`
returns the state untouched — FolderCache, ExpandedSet, OpenFile map,
activeTab, SelectedItem and Descriptions are exactly as before the
operation, because every local update in the function body follows the
awaited remote call and the `catch` only logs. -/
theorem claim_C8_rename_error_untouched (s : ClientState)
    (renamePath newName : String) (e : Unit) (reload : RenameReload) :
    confirmRename s renamePath newName (Except.error e) reload = s := by
  unfold confirmRename
  by_cases h : newName = ""
  · rw [if_pos h]
  · rw [if_neg h]

/-! ## The loadTree re-expansion order -/

/-- Stable insertion into a list sorted by `depth`; together with
`sortByDepth` this models the comparator `(a, b) => depth(a) - depth(b)`
passed to `Array.prototype.sort` in `loadTree` (app.js lines 299-303). -/
def insertByDepth (x : String) : List String → List String
  | [] => [x]
  | y :: ys =>
    if depth x ≤ depth y then x :: y :: ys else y :: insertByDepth x ys

/-- The sort of the snapshot of previously expanded paths in
`loadTree`. -/
def sortByDepth : List String → List String
  | [] => []
  | x :: xs => insertByDepth x (sortByDepth xs)

/-- The order in which `loadTree` (app.js lines 305-322) attempts the
re-expansions: the snapshot sorted by segment count, then processed
sequentially with `await`, so list position is temporal order. -/
def loadTreeExpansionOrder (prevExpanded : List String) : List String :=
  sortByDepth prevExpanded

theorem getLast?_cons_of_ne_nil (c : Char) {cs : List Char} (h : cs ≠ []) :
    (c :: cs).getLast? = cs.getLast? := by
  cases cs with
  | nil => exact absurd rfl h
  | cons d ds => exact List.getLast?_cons_cons

theorem filter_length_cons_le (x : List Char) (rest : List (List Char)) :
    ((rest).filter (fun s => !s.isEmpty)).length ≤
      ((x :: rest).filter (fun s => !s.isEmpty)).length := by
  rw [List.filter_cons]
  by_cases hx : (!x.isEmpty) = true
  · rw [if_pos hx]
    simp
  · rw [if_neg hx]

theorem mem_insertByDepth {b x : String} :
    ∀ {l : List String}, b ∈ insertByDepth x l → b = x ∨ b ∈ l := by
  intro l
  induction l with
  | nil =>
    intro h
    simp [insertByDepth] at h
    exact Or.inl h
  | cons y ys ih =>
    intro h
    by_cases hle : depth x ≤ depth y
    · rw [insertByDepth, if_pos hle] at h
      rcases List.mem_cons.1 h with h1 | h1
      · exact Or.inl h1
      · exact Or.inr h1
    · rw [insertByDepth, if_neg hle] at h
      rcases List.mem_cons.1 h with h1 | h1
      · exact Or.inr (by simp [h1])
      · rcases ih h1 with h2 | h2
        · exact Or.inl h2
        · exact Or.inr (by simp [h2])

theorem pairwise_insertByDepth (x : String) (l : List String)
    (h : l.Pairwise (fun a b => depth a ≤ depth b)) :
    (insertByDepth x l).Pairwise (fun a b => depth a ≤ depth b) := by
  induction l with
  | nil => simp [insertByDepth]
  | cons y ys ih =>
    rw [List.pairwise_cons] at h
    obtain ⟨hy, hys⟩ := h
    by_cases hle : depth x ≤ depth y
    · rw [insertByDepth, if_pos hle]
      rw [List.pairwise_cons]
      constructor
      · intro b hb
        rcases List.mem_cons.1 hb with h1 | h1
        · rw [h1]
          exact hle
        · exact le_trans hle (hy b h1)
      · rw [List.pairwise_cons]
        exact ⟨hy, hys⟩
    · rw [insertByDepth, if_neg hle]
      rw [List.pairwise_cons]
      constructor
      · intro b hb
        rcases mem_insertByDepth hb with h1 | h1
        · rw [h1]
          omega
        · exact hy b h1
      · exact ih hys

theorem sortByDepth_sorted (l : List String) :
    (sortByDepth l).Pairwise (fun a b => depth a ≤ depth b) := by
  induction l with
  | nil => simp [sortByDepth]
  | cons x xs ih => exact pairwise_insertByDepth x (sortByDepth xs) ih

theorem splitSlashAux_append (l1 l2 : List Char) :
    ∀ acc, splitSlashAux (l1 ++ '/' :: l2) acc =
      splitSlashAux l1 acc ++ splitSlashL l2 := by
  induction l1 with
  | nil =>
    intro acc
    simp [splitSlashAux, splitSlashL]
  | cons c cs ih =>
    intro acc
    by_cases hc : c = '/'
    · simp [splitSlashAux, hc, ih]
    · simp [splitSlashAux, hc, ih]

theorem depthL_append (l1 l2 : List Char) :
    depthL (l1 ++ '/' :: l2) = depthL l1 + depthL l2 := by
  unfold depthL splitSlashL
  rw [splitSlashAux_append l1 l2 []]
  rw [List.filter_append, List.length_append]
  rfl

theorem depth_aux_pos :
    ∀ (l acc : List Char), l.getLast? ≠ some '/' → (l = [] → acc ≠ []) →
      0 < ((splitSlashAux l acc).filter (fun s => !s.isEmpty)).length := by
  intro l
  induction l with
  | nil =>
    intro acc _ hacc
    have hne : acc ≠ [] := hacc rfl
    have h1 : acc.reverse ≠ [] := fun hc => hne (by simpa using hc)
    have h2 : acc.reverse.isEmpty = false := by
      cases hr : acc.reverse with
      | nil => exact absurd hr h1
      | cons a as => rfl
    simp [splitSlashAux, List.filter, h2]
  | cons c cs ih =>
    intro acc hlast hacc
    by_cases hc : c = '/'
    · subst hc
      have hcs : cs ≠ [] := by
        intro hcnil
        subst hcnil
        exact hlast rfl
      have hlast2 : cs.getLast? ≠ some '/' := by
        rw [← getLast?_cons_of_ne_nil '/' hcs]
        exact hlast
      have hpos := ih [] hlast2 (fun h => absurd h hcs)
      have hstep : splitSlashAux ('/' :: cs) acc =
          acc.reverse :: splitSlashAux cs [] := by
        simp [splitSlashAux]
      rw [hstep]
      exact lt_of_lt_of_le hpos (filter_length_cons_le acc.reverse (splitSlashAux cs []))
    · have hstep : splitSlashAux (c :: cs) acc = splitSlashAux cs (c :: acc) := by
        simp [splitSlashAux, hc]
      rw [hstep]
      apply ih (c :: acc)
      · by_cases hcs : cs = []
        · subst hcs
          simp
        · rw [← getLast?_cons_of_ne_nil c hcs]
          exact hlast
      · intro _
        exact List.cons_ne_nil c acc

theorem depthL_pos {l : List Char} (hne : l ≠ [])
    (hlast : l.getLast? ≠ some '/') : 0 < depthL l :=
  depth_aux_pos l [] hlast (fun h => absurd h hne)

/-- A proper segment ancestor has strictly smaller `depth` than its
descendant, for canonical paths. -/
theorem depth_lt_of_ancestor (a d : String)
    (ha : normalizePath a = a) (hd : normalizePath d = d) (hne : a ≠ d)
    (hanc : a = "/" ∨ strStartsWith d (a ++ "/") = true) :
    depth a < depth d := by
  have hshape_d := normalizePath_shape d
  rw [hd] at hshape_d
  by_cases haroot : a = "/"
  · subst haroot
    have hdroot : d ≠ "/" := fun h => hne h.symm
    rcases hshape_d with h | ⟨l, hdata, hlne, _, hll⟩
    · exact absurd h hdroot
    · have h0 : depth ("/") = 0 := by decide
      rw [h0]
      unfold depth
      rw [hdata]
      have hsplit : ('/' :: l : List Char) = [] ++ '/' :: l := rfl
      rw [hsplit, depthL_append]
      have h1 : depthL [] = 0 := by decide
      rw [h1]
      have := depthL_pos hlne hll
      omega
  · rcases hanc with h | hstart
    · exact absurd h haroot
    · have hshape_a := normalizePath_shape a
      rw [ha] at hshape_a
      rcases hshape_a with h | ⟨la, hadata, halne, _, _⟩
      · exact absurd h haroot
      unfold strStartsWith at hstart
      obtain ⟨t, ht⟩ := (isPrefixOf_iff_append (a ++ "/").data d.data).1 hstart
      rw [string_data_append] at ht
      have hd2 : d.data = a.data ++ '/' :: t := by
        rw [← ht, List.append_assoc]
        rfl
      have hdne : d ≠ "/" := by
        intro hdr
        rw [hdr] at hd2
        have h1 : ("/").data = ['/'] := rfl
        rw [h1] at hd2
        have hlen := congrArg List.length hd2
        rw [List.length_append, hadata] at hlen
        simp [List.length_cons] at hlen
        omega
      rcases hshape_d with h | ⟨l, hdata, hlne, _, hll⟩
      · exact absurd h hdne
      have hdlast : d.data.getLast? ≠ some '/' := by
        rw [hdata]
        rw [getLast?_cons_of_ne_nil '/' hlne]
        exact hll
      have htne : t ≠ [] := by
        intro hT
        subst hT
        apply hdlast
        rw [hd2, List.getLast?_append_cons]
        rfl
      have htlast : t.getLast? ≠ some '/' := by
        intro hT
        apply hdlast
        rw [hd2, List.getLast?_append_cons, getLast?_cons_of_ne_nil '/' htne]
        exact hT
      unfold depth
      rw [hd2, depthL_append]
      have := depthL_pos htne htlast
      omega

/-- Claim C9: in the order in which `loadTree` re-expands the snapshot
of previously expanded paths, a proper segment ancestor of a path is
always processed — expanded and, when needed, fetched — strictly before
that path, since it has strictly fewer segments and the snapshot is
sorted by segment count before the sequential awaited loop. -/
theorem claim_C9_ancestors_before_descendants (l : List String)
    (a d : String) (i j : Nat)
    (hi : i < (loadTreeExpansionOrder l).length)
    (hj : j < (loadTreeExpansionOrder l).length)
    (hia : (loadTreeExpansionOrder l).get ⟨i, hi⟩ = a)
    (hjd : (loadTreeExpansionOrder l).get ⟨j, hj⟩ = d)
    (ha : normalizePath a = a) (hd : normalizePath d = d) (hne : a ≠ d)
    (hanc : a = "/" ∨ strStartsWith d (a ++ "/") = true) :
    i < j := by
  unfold loadTreeExpansionOrder at hi hj hia hjd
  have hsorted := sortByDepth_sorted l
  have hlt := depth_lt_of_ancestor a d ha hd hne hanc
  rcases Nat.lt_trichotomy i j with h | h | h
  · exact h
  · exfalso
    have had : a = d := by
      rw [← hia, ← hjd]
      congr 1
      exact Fin.ext h
    exact hne had
  · exfalso
    have hfin : (⟨j, hj⟩ : Fin (sortByDepth l).length) < ⟨i, hi⟩ := h
    have hle := List.pairwise_iff_get.1 hsorted ⟨j, hj⟩ ⟨i, hi⟩ hfin
    rw [hia, hjd] at hle
    omega

/-- Claim C9 witness: with the snapshot `{/a/b, /a}` the sorted order
is `/a` before `/a/b`, and the theorem applied at those positions
yields `0 < 1`. -/
theorem claim_C9_witness :
    loadTreeExpansionOrder ["/a/b", "/a"] = ["/a", "/a/b"] ∧ (0 : Nat) < 1 := by
  constructor
  · decide
  · exact claim_C9_ancestors_before_descendants ["/a/b", "/a"] "/a" "/a/b" 0 1
      (by decide) (by decide) (by decide) (by decide) (by decide) (by decide)
      (by decide) (Or.inr (by decide))

/-! ## The server rename endpoint and the description store -/

/-- The new path computed by the server rename endpoint
(`app.put("/api/rename")`): `oldPath.split("/")` with the last node
replaced by `newName`, joined back with `"/"`. -/
def serverRenameNewPath (oldPath newName : String) : String :=
  String.mk (joinSlashL ((splitSlashL oldPath.data).dropLast ++ [newName.data]))

/-- The description re-keying done by the server rename endpoint: only
when a truthy description is stored under exactly `oldPath` is it
copied to the new path and the old key deleted; keys of descendant
paths are never touched.  Returns the updated store and the reported
`newPath`. -/
def serverRenameDescriptions (descs : List (String × String))
    (oldPath newName : String) : List (String × String) × String :=
  let newPath := serverRenameNewPath oldPath newName
  match objGet descs oldPath with
  | some v =>
    if v ≠ "" then (objDel (mapSet descs newPath v) oldPath, newPath)
    else (descs, newPath)
  | none => (descs, newPath)

/-- The server `GET /api/description` for a single path:
`descriptions[filePath] || ""`. -/
def serverGetDescription (descs : List (String × String)) (p : String) :
    String :=
  match objGet descs p with
  | some v => v
  | none => ""

theorem ne_of_startsWith_slash {s t : String}
    (h : strStartsWith s (t ++ "/") = true) : s ≠ t := by
  unfold strStartsWith at h
  obtain ⟨u, hu⟩ := (isPrefixOf_iff_append (t ++ "/").data s.data).1 h
  intro hc
  subst hc
  have hlen := congrArg List.length hu
  rw [string_data_append, List.length_append, List.length_append] at hlen
  have h1 : ("/").data.length = 1 := rfl
  rw [h1] at hlen
  omega

theorem objGet_objDel_ne {β : Type} (m : List (String × β)) (k q : String)
    (h : q ≠ k) : objGet (objDel m k) q = objGet m q := by
  induction m with
  | nil => rfl
  | cons e m' ih =>
    unfold objDel at ih ⊢
    rw [List.filter_cons]
    by_cases hek : e.1 = k
    · have hb : (!(e.1 == k)) = false := by simp [hek]
      rw [hb]
      have hq : ¬(e.1 = q) := by
        rw [hek]
        exact fun hc => h hc.symm
      simp only [Bool.false_eq_true, if_false]
      rw [ih]
      show objGet m' q = if e.1 = q then some e.2 else objGet m' q
      rw [if_neg hq]
    · have hb : (!(e.1 == k)) = true := by simp [hek]
      rw [hb]
      simp only [if_true]
      show (if e.1 = q then some e.2 else
        objGet (m'.filter (fun e => !(e.1 == k))) q) =
        (if e.1 = q then some e.2 else objGet m' q)
      by_cases heq : e.1 = q
      · rw [if_pos heq, if_pos heq]
      · rw [if_neg heq, if_neg heq, ih]

theorem objGet_map_update_ne {β : Type} (m : List (String × β))
    (k q : String) (v : β) (h : q ≠ k) :
    objGet (m.map (fun e => if e.1 = k then (k, v) else e)) q =
      objGet m q := by
  induction m with
  | nil => rfl
  | cons e m' ih =>
    rw [List.map_cons]
    by_cases hek : e.1 = k
    · rw [if_pos hek]
      have hkq : ¬(k = q) := fun hc => h hc.symm
      have hq : ¬(e.1 = q) := by
        rw [hek]
        exact hkq
      show (if k = q then some v else
        objGet (m'.map (fun e => if e.1 = k then (k, v) else e)) q) =
        (if e.1 = q then some e.2 else objGet m' q)
      rw [if_neg hkq, if_neg hq, ih]
    · rw [if_neg hek]
      show (if e.1 = q then some e.2 else
        objGet (m'.map (fun e => if e.1 = k then (k, v) else e)) q) =
        (if e.1 = q then some e.2 else objGet m' q)
      by_cases heq : e.1 = q
      · rw [if_pos heq, if_pos heq]
      · rw [if_neg heq, if_neg heq, ih]

theorem objGet_append_single_ne {β : Type} (m : List (String × β))
    (k q : String) (v : β) (h : q ≠ k) :
    objGet (m ++ [(k, v)]) q = objGet m q := by
  induction m with
  | nil =>
    show (if k = q then some v else objGet ([] : List (String × β)) q) = none
    rw [if_neg (fun hc => h hc.symm)]
    rfl
  | cons e m' ih =>
    rw [List.cons_append]
    show (if e.1 = q then some e.2 else objGet (m' ++ [(k, v)]) q) =
      (if e.1 = q then some e.2 else objGet m' q)
    by_cases heq : e.1 = q
    · rw [if_pos heq, if_pos heq]
    · rw [if_neg heq, if_neg heq, ih]

theorem objGet_mapSet_ne {β : Type} (m : List (String × β)) (k q : String)
    (v : β) (h : q ≠ k) : objGet (mapSet m k v) q = objGet m q := by
  unfold mapSet
  by_cases hany : (m.any (fun e => e.1 == k)) = true
  · rw [if_pos hany]
    exact objGet_map_update_ne m k q v h
  · rw [if_neg hany]
    exact objGet_append_single_ne m k q v h

/-- Claim C10: the server rename endpoint re-keys only the description
stored under exactly `oldPath`.  For a path `dp` strictly below the
renamed folder with a stored description, the store afterwards still
holds the text under the stale key `dp`, while `getDescription` on the
client-rewritten new path of `dp` returns the empty description
(provided nothing was already stored under that new path and the
involved keys are distinct, which the path shapes guarantee in
operation). -/
theorem claim_C10_server_rename_descriptions
    (descs : List (String × String)) (oldPath newName dp text : String)
    (hdp : strStartsWith dp (oldPath ++ "/") = true)
    (hstored : objGet descs dp = some text)
    (hnewdp : objGet descs (strReplaceFirst dp oldPath
        (serverRenameNewPath oldPath newName)) = none)
    (hdpnew : dp ≠ serverRenameNewPath oldPath newName)
    (hnddp : strReplaceFirst dp oldPath (serverRenameNewPath oldPath newName) ≠
        serverRenameNewPath oldPath newName) :
    objGet (serverRenameDescriptions descs oldPath newName).1 dp = some text ∧
    serverGetDescription (serverRenameDescriptions descs oldPath newName).1
      (strReplaceFirst dp oldPath (serverRenameNewPath oldPath newName)) = "" := by
  have hdpold : dp ≠ oldPath := ne_of_startsWith_slash hdp
  cases hold : objGet descs oldPath with
  | none =>
    have hr : (serverRenameDescriptions descs oldPath newName).1 = descs := by
      unfold serverRenameDescriptions
      rw [hold]
    rw [hr]
    refine ⟨hstored, ?_⟩
    unfold serverGetDescription
    rw [hnewdp]
  | some v =>
    by_cases hv : v ≠ ""
    · have hndold : strReplaceFirst dp oldPath
          (serverRenameNewPath oldPath newName) ≠ oldPath := by
        intro hc
        rw [hc, hold] at hnewdp
        exact Option.noConfusion hnewdp
      have hr : (serverRenameDescriptions descs oldPath newName).1 =
          objDel (mapSet descs (serverRenameNewPath oldPath newName) v)
            oldPath := by
        unfold serverRenameDescriptions
        rw [hold]
        simp [hv]
      rw [hr]
      constructor
      · rw [objGet_objDel_ne _ _ _ hdpold, objGet_mapSet_ne _ _ _ _ hdpnew]
        exact hstored
      · unfold serverGetDescription
        rw [objGet_objDel_ne _ _ _ hndold, objGet_mapSet_ne _ _ _ _ hnddp]
        rw [hnewdp]
    · have hr : (serverRenameDescriptions descs oldPath newName).1 = descs := by
        unfold serverRenameDescriptions
        rw [hold]
        simp [hv]
      rw [hr]
      refine ⟨hstored, ?_⟩
      unfold serverGetDescription
      rw [hnewdp]

/-- Claim C10 witness: renaming `/docs` to `documents` with the single
stored description on `/docs/readme.txt` leaves the text under the
stale old key while the rewritten path `/documents/readme.txt` reads
back empty. -/
theorem claim_C10_witness :
    objGet (serverRenameDescriptions [("/docs/readme.txt", "hello")]
      "/docs" "documents").1 "/docs/readme.txt" = some "hello" ∧
    serverGetDescription (serverRenameDescriptions
        [("/docs/readme.txt", "hello")] "/docs" "documents").1
      (strReplaceFirst "/docs/readme.txt" "/docs"
        (serverRenameNewPath "/docs" "documents")) = "" :=
  claim_C10_server_rename_descriptions [("/docs/readme.txt", "hello")]
    "/docs" "documents" "/docs/readme.txt" "hello"
    (by decide) (by decide) (by decide) (by decide) (by decide)
